import Mathlib

/-!
Verification of the fastip repository's probing/selection core.

The development shallowly embeds the two Go source files:

* `src/unnamed/part_000` (the "Smart GitHub CDN Optimizer"):
  `findBestCDNNode`, `testLatency`, `testDownloadSpeed`, `validateCDNNode`.
  Go `float64` values (latencies in milliseconds, speeds in KB/s) are
  modelled as rationals; the network environment is passed in explicitly
  (`connect` gives the elapsed connect time in seconds when the TCP dial
  succeeds, `download` gives the elapsed time and the number of bytes
  transferred when the bounded HTTP download succeeds).  The concurrent
  fan-out writes each probed node once into a channel; the fan-in loop of
  `findBestCDNNode` reads the channel in completion order, so the reduce
  is modelled as a fold over an arbitrary permutation (`arrivals`) of the
  probed results.

* `src/findfastip.go`: `findFastestIP` (domestic-node filtering and
  best-average-latency choice over the itdog ping response) and
  `updateHosts` (the hosts-file rewrite).  Go strings are modelled as
  `List Char`; the Go map `ipMap` is modelled as an association list whose
  list order stands for the (nondeterministic) Go map iteration order,
  while lookups go through `lookupIP`, which only depends on the underlying
  finite map.
-/

namespace FastIP

/-- String of the Go sources, modelled as a list of characters. -/
abbrev Str := List Char

/-! ## Part 000: CDN node probing and selection -/

/-- `CDNNode` from `part_000`: IP, region, latency (ms), speed (KB/s).
Fresh nodes carry the zero values `0` for both measurements, as in Go. -/
structure CDNNode where
  ip : Str
  region : Str
  latency : ℚ
  speed : ℚ
deriving DecidableEq, Repr

/-- `testLatency` from `part_000`: the dial either fails (`none`, the Go
function returns `-1`) or succeeds after `t` seconds, in which case the Go
function returns `time.Since(start).Seconds() * 1000`. -/
def testLatency (connectResult : Option ℚ) : ℚ :=
  match connectResult with
  | none => -1
  | some t => t * 1000

/-- `testDownloadSpeed` from `part_000`: on transport failure the Go
function returns `0`; on success it ignores the actual transferred byte
count (`io.Copy(io.Discard, ...)` discards it) and returns
`sizeKB / duration` with the hard-coded `sizeKB := float64(4500) / 1024`.
The discarded byte count is kept as an (unused) component so that the
relation between recorded speed and actual bytes can be stated. -/
def testDownloadSpeed (downloadResult : Option (ℚ × ℕ)) : ℚ :=
  match downloadResult with
  | none => 0
  | some (duration, _bytes) => (4500 / 1024) / duration

/-- The body of the probe goroutine in `findBestCDNNode`:
`n.Latency = testLatency(n.IP); if n.Latency > 0 { n.Speed = testDownloadSpeed(n.IP) }`. -/
def probeNode (connect : Str → Option ℚ) (download : Str → Option (ℚ × ℕ))
    (n : CDNNode) : CDNNode :=
  if 0 < testLatency (connect n.ip) then
    { n with latency := testLatency (connect n.ip),
             speed := testDownloadSpeed (download n.ip) }
  else
    { n with latency := testLatency (connect n.ip) }

/-- The concurrent fan-out of `findBestCDNNode`: one goroutine per input
node, each sending exactly one probed result into the channel. -/
def probeAll (connect : Str → Option ℚ) (download : Str → Option (ℚ × ℕ))
    (nodes : List CDNNode) : List CDNNode :=
  nodes.map (probeNode connect download)

/-- The initial accumulator of the fan-in loop:
`bestNode := CDNNode{Latency: 1000}`. -/
def initialBest : CDNNode := { ip := [], region := [], latency := 1000, speed := 0 }

/-- The fan-in loop of `findBestCDNNode`:
`for node := range results { if node.Latency > 0 && node.Latency < bestNode.Latency { bestNode = node } }`,
folded over the channel contents in arrival order. -/
def selectLoop (best : CDNNode) : List CDNNode → CDNNode
  | [] => best
  | n :: rest =>
      if 0 < n.latency ∧ n.latency < best.latency then selectLoop n rest
      else selectLoop best rest

/-- The default node returned on empty input:
`CDNNode{IP: "140.82.113.3"}`. -/
def defaultNode : CDNNode :=
  { ip := "140.82.113.3".toList, region := [], latency := 0, speed := 0 }

/-- `findBestCDNNode` from `part_000`.  `nodes` is the input slice;
`arrivals` is the channel contents in completion order (a permutation of
`probeAll connect download nodes` in any actual run). -/
def findBestCDNNode (nodes : List CDNNode) (arrivals : List CDNNode) : CDNNode :=
  if nodes = [] then defaultNode
  else selectLoop initialBest arrivals

/-- `validateCDNNode` from `part_000`:
`node.Latency > 0 && node.Latency < 500 && node.Speed > 100`. -/
def validateCDNNode (n : CDNNode) : Bool :=
  decide (0 < n.latency) && decide (n.latency < 500) && decide (100 < n.speed)

/-- The selection step of `main` in `part_000`: `findBestCDNNode` followed
by the `validateCDNNode` gate; when the gate fails the run saves the
fallback sentinel, i.e. no candidate is chosen. -/
def selectBest (nodes : List CDNNode) (arrivals : List CDNNode) : Option CDNNode :=
  if validateCDNNode (findBestCDNNode nodes arrivals) = true then
    some (findBestCDNNode nodes arrivals)
  else none

/-! ### Selection lemmas -/

/-- The fan-in fold keeps its accumulator when no element beats it. -/
theorem selectLoop_eq_self (l : List CDNNode) (best : CDNNode)
    (h : ∀ n ∈ l, ¬(0 < n.latency ∧ n.latency < best.latency)) :
    selectLoop best l = best := by
  induction l with
  | nil => rfl
  | cons n rest ih =>
      simp only [selectLoop]
      rw [if_neg (h n (List.mem_cons_self n rest))]
      exact ih fun x hx => h x (List.mem_cons_of_mem n hx)

/-- The fan-in fold returns the unique strict minimum-latency element,
whatever the arrival order presents first. -/
theorem selectLoop_eq_of_min (l : List CDNNode) (best b : CDNNode)
    (hmem : b ∈ l) (hpos : 0 < b.latency) (hlt : b.latency < best.latency)
    (hmin : ∀ n ∈ l, 0 < n.latency →
      b.latency ≤ n.latency ∧ (n.latency = b.latency → n = b)) :
    selectLoop best l = b := by
  induction l generalizing best with
  | nil => cases hmem
  | cons n rest ih =>
      by_cases hnb : n = b
      · subst hnb
        simp only [selectLoop]
        rw [if_pos ⟨hpos, hlt⟩]
        apply selectLoop_eq_self
        intro x hx hcon
        rcases hmin x (List.mem_cons_of_mem n hx) hcon.1 with ⟨hle, _⟩
        exact absurd hcon.2 (not_lt.mpr hle)
      · have hbrest : b ∈ rest := by
          rcases List.mem_cons.mp hmem with h1 | h1
          · exact absurd h1.symm hnb
          · exact h1
        have hminrest : ∀ x ∈ rest, 0 < x.latency →
            b.latency ≤ x.latency ∧ (x.latency = b.latency → x = b) :=
          fun x hx => hmin x (List.mem_cons_of_mem n hx)
        simp only [selectLoop]
        by_cases hc : 0 < n.latency ∧ n.latency < best.latency
        · rw [if_pos hc]
          have hlt' : b.latency < n.latency := by
            rcases hmin n (List.mem_cons_self n rest) hc.1 with ⟨hle, heq⟩
            rcases lt_or_eq_of_le hle with h | h
            · exact h
            · exact absurd (heq h.symm) hnb
          exact ih n hbrest hlt' hminrest
        · rw [if_neg hc]
          exact ih best hbrest hlt hminrest

/-- A probe whose TCP dial fails records latency `-1` and leaves the node
otherwise untouched. -/
theorem probeNode_of_connect_none (connect : Str → Option ℚ)
    (download : Str → Option (ℚ × ℕ)) (n : CDNNode)
    (h : connect n.ip = none) :
    probeNode connect download n = { n with latency := -1 } := by
  rw [probeNode, h]
  norm_num [testLatency]

/-! ### Claim theorems for the selection core -/

/-- C1 (counterexample): with candidates `1.2.3.4` (latency 50 ms, speed
500 KB/s) and `5.6.7.8` (latency 30 ms, speed 50 KB/s) and the standard
thresholds, a valid candidate exists among the probe results, yet
`selectBest` chooses nobody: the code picks the minimum-latency node before
the throughput gate, so the failing low-latency node masks the valid one,
contradicting the claim that the remaining valid candidate is chosen. -/
theorem c1_counterexample :
    validateCDNNode { ip := "1.2.3.4".toList, region := [], latency := 50, speed := 500 } = true ∧
    { ip := "1.2.3.4".toList, region := [], latency := 50, speed := 500 } ∈
      probeAll
        (fun ip => if ip = "1.2.3.4".toList then some (1/20) else some (3/100))
        (fun ip => if ip = "1.2.3.4".toList then some (9/1024, 4500) else some (45/512, 4500))
        [{ ip := "1.2.3.4".toList, region := [], latency := 0, speed := 0 },
         { ip := "5.6.7.8".toList, region := [], latency := 0, speed := 0 }] ∧
    selectBest
      [{ ip := "1.2.3.4".toList, region := [], latency := 0, speed := 0 },
       { ip := "5.6.7.8".toList, region := [], latency := 0, speed := 0 }]
      (probeAll
        (fun ip => if ip = "1.2.3.4".toList then some (1/20) else some (3/100))
        (fun ip => if ip = "1.2.3.4".toList then some (9/1024, 4500) else some (45/512, 4500))
        [{ ip := "1.2.3.4".toList, region := [], latency := 0, speed := 0 },
         { ip := "5.6.7.8".toList, region := [], latency := 0, speed := 0 }]) = none := by
  have hp : probeAll
      (fun ip => if ip = "1.2.3.4".toList then some (1/20) else some (3/100))
      (fun ip => if ip = "1.2.3.4".toList then some (9/1024, 4500) else some (45/512, 4500))
      [{ ip := "1.2.3.4".toList, region := [], latency := 0, speed := 0 },
       { ip := "5.6.7.8".toList, region := [], latency := 0, speed := 0 }] =
      [{ ip := "1.2.3.4".toList, region := [], latency := 50, speed := 500 },
       { ip := "5.6.7.8".toList, region := [], latency := 30, speed := 50 }] := by
    simp +decide only [probeAll, List.map, probeNode, testLatency, testDownloadSpeed]
    norm_num
  rw [hp]
  refine ⟨by decide, by decide, by decide⟩

/-- C1 (amended): `selectBest` returns the candidate `b` exactly when `b`
is the unique strict minimum-latency reachable result and `b` itself
passes the validity gate, and then its latency is minimal among valid
candidates; when a strictly lower-latency candidate fails the throughput
floor, the outcome is absent, not the remaining valid candidate. -/
theorem c1_selectBest_strict_min (nodes arrivals : List CDNNode) (b : CDNNode)
    (hne : nodes ≠ []) (hmem : b ∈ arrivals) (hval : validateCDNNode b = true)
    (hmin : ∀ n ∈ arrivals, 0 < n.latency →
      b.latency ≤ n.latency ∧ (n.latency = b.latency → n = b)) :
    selectBest nodes arrivals = some b ∧
      ∀ n ∈ arrivals, validateCDNNode n = true → b.latency ≤ n.latency := by
  have hv := hval
  rw [validateCDNNode] at hv
  simp only [Bool.and_eq_true, decide_eq_true_eq] at hv
  obtain ⟨⟨hpos, hlt500⟩, _⟩ := hv
  have hbest : findBestCDNNode nodes arrivals = b := by
    rw [findBestCDNNode, if_neg hne]
    refine selectLoop_eq_of_min arrivals initialBest b hmem hpos ?_ hmin
    show b.latency < (1000 : ℚ)
    linarith
  constructor
  · rw [selectBest, hbest, if_pos hval]
  · intro n hn hvn
    rw [validateCDNNode] at hvn
    simp only [Bool.and_eq_true, decide_eq_true_eq] at hvn
    exact (hmin n hn hvn.1.1).1

/-- C1 witness: the spec's first scenario, where both candidates are
valid and the lower-latency `5.6.7.8` is chosen. -/
theorem c1_witness :
    selectBest
      [{ ip := "1.2.3.4".toList, region := [], latency := 50, speed := 500 },
       { ip := "5.6.7.8".toList, region := [], latency := 30, speed := 200 }]
      [{ ip := "1.2.3.4".toList, region := [], latency := 50, speed := 500 },
       { ip := "5.6.7.8".toList, region := [], latency := 30, speed := 200 }] =
      some { ip := "5.6.7.8".toList, region := [], latency := 30, speed := 200 } ∧
    ∀ n ∈ [({ ip := "1.2.3.4".toList, region := [], latency := 50, speed := 500 } : CDNNode),
           { ip := "5.6.7.8".toList, region := [], latency := 30, speed := 200 }],
      validateCDNNode n = true →
        ({ ip := "5.6.7.8".toList, region := [], latency := 30, speed := 200 } : CDNNode).latency ≤
          n.latency :=
  c1_selectBest_strict_min
    [{ ip := "1.2.3.4".toList, region := [], latency := 50, speed := 500 },
     { ip := "5.6.7.8".toList, region := [], latency := 30, speed := 200 }]
    [{ ip := "1.2.3.4".toList, region := [], latency := 50, speed := 500 },
     { ip := "5.6.7.8".toList, region := [], latency := 30, speed := 200 }]
    { ip := "5.6.7.8".toList, region := [], latency := 30, speed := 200 }
    (by decide) (by decide) (by decide) (by decide)

/-- C2: the composed selection (`findBestCDNNode` then the
`validateCDNNode` gate) yields chosen = absent both for an empty candidate
slice and when every candidate's TCP dial fails, for every completion
order of the probes; no error value exists on this path. -/
theorem c2_selectBest_empty_or_unreachable_none
    (nodes : List CDNNode) (connect : Str → Option ℚ)
    (download : Str → Option (ℚ × ℕ)) (arrivals : List CDNNode)
    (hperm : arrivals.Perm (probeAll connect download nodes))
    (h : nodes = [] ∨ ∀ n ∈ nodes, connect n.ip = none) :
    selectBest nodes arrivals = none := by
  rcases h with h | h
  · subst h
    rw [selectBest, findBestCDNNode, if_pos rfl]
    decide
  · by_cases hne : nodes = []
    · subst hne
      rw [selectBest, findBestCDNNode, if_pos rfl]
      decide
    · have hloop : selectLoop initialBest arrivals = initialBest := by
        apply selectLoop_eq_self
        intro x hx hcon
        have hx' : x ∈ probeAll connect download nodes := hperm.subset hx
        rcases List.mem_map.mp hx' with ⟨n, hn, rfl⟩
        rw [probeNode_of_connect_none connect download n (h n hn)] at hcon
        exact absurd hcon.1 (by norm_num)
      rw [selectBest, findBestCDNNode, if_neg hne, hloop]
      decide

/-- C2 witness: one unreachable candidate, probed in program order. -/
theorem c2_witness :
    selectBest [{ ip := "1.2.3.4".toList, region := [], latency := 0, speed := 0 }]
      (probeAll (fun _ => none) (fun _ => none)
        [{ ip := "1.2.3.4".toList, region := [], latency := 0, speed := 0 }]) = none :=
  c2_selectBest_empty_or_unreachable_none
    [{ ip := "1.2.3.4".toList, region := [], latency := 0, speed := 0 }]
    (fun _ => none) (fun _ => none)
    (probeAll (fun _ => none) (fun _ => none)
      [{ ip := "1.2.3.4".toList, region := [], latency := 0, speed := 0 }])
    (List.Perm.refl _)
    (Or.inr fun _ _ => rfl)

/-- C3 (counterexample): a successful bounded download that transfers 9000
bytes in 1 second is recorded with speed `4500/1024` KB/s, which is
neither `9000` bytes per second nor `9000/1024` KB per second: the code
divides the hard-coded size `4500` bytes by the elapsed time instead of
the transferred byte count. -/
theorem c3_counterexample :
    testDownloadSpeed (some (1, 9000)) ≠ 9000 / 1 ∧
    testDownloadSpeed (some (1, 9000)) ≠ (9000 : ℚ) / 1024 / 1 ∧
    testDownloadSpeed (some (1, 9000)) = (4500 : ℚ) / 1024 := by
  norm_num [testDownloadSpeed]

/-- C3 (amended): for every probed candidate whose connection succeeded
and whose bounded download succeeded, the recorded throughput equals the
hard-coded assumed size of 4500 bytes (`4500/1024` KB), divided by the
elapsed seconds of the download, independent of the bytes actually
transferred. -/
theorem c3_throughput_fixed_size (connect : Str → Option ℚ)
    (download : Str → Option (ℚ × ℕ)) (n : CDNNode) (t duration : ℚ) (bytes : ℕ)
    (hc : connect n.ip = some t) (ht : 0 < t)
    (hd : download n.ip = some (duration, bytes)) :
    (probeNode connect download n).speed = (4500 / 1024) / duration := by
  have hpos : 0 < testLatency (connect n.ip) := by
    rw [hc, testLatency]
    positivity
  rw [probeNode, if_pos hpos, hd]
  rfl

/-- C3 witness: a download of 9000 bytes in 1 second records
`4500/1024` KB/s. -/
theorem c3_witness :
    (probeNode (fun _ => some 1) (fun _ => some (1, 9000))
      { ip := "1.2.3.4".toList, region := [], latency := 0, speed := 0 }).speed =
      (4500 / 1024) / 1 :=
  c3_throughput_fixed_size (fun _ => some 1) (fun _ => some (1, 9000))
    { ip := "1.2.3.4".toList, region := [], latency := 0, speed := 0 }
    1 1 9000 rfl (by norm_num) rfl

/-- C4 (counterexample): two candidates tie at 30 ms latency with healthy
speed.  Both arrival orders are permutations of the same probe results for
the same input sequence, yet the channel order `[1.2.3.4, 5.6.7.8]`
chooses `1.2.3.4` and the channel order `[5.6.7.8, 1.2.3.4]` chooses
`5.6.7.8`: the tie is broken by wall-clock completion order, not by the
input order captured before dispatch. -/
theorem c4_counterexample :
    [({ ip := "5.6.7.8".toList, region := [], latency := 30, speed := 500 } : CDNNode),
     { ip := "1.2.3.4".toList, region := [], latency := 30, speed := 500 }].Perm
      (probeAll (fun _ => some (3/100)) (fun _ => some (9/1024, 4500))
        [{ ip := "1.2.3.4".toList, region := [], latency := 0, speed := 0 },
         { ip := "5.6.7.8".toList, region := [], latency := 0, speed := 0 }]) ∧
    selectBest
      [{ ip := "1.2.3.4".toList, region := [], latency := 0, speed := 0 },
       { ip := "5.6.7.8".toList, region := [], latency := 0, speed := 0 }]
      (probeAll (fun _ => some (3/100)) (fun _ => some (9/1024, 4500))
        [{ ip := "1.2.3.4".toList, region := [], latency := 0, speed := 0 },
         { ip := "5.6.7.8".toList, region := [], latency := 0, speed := 0 }]) =
      some { ip := "1.2.3.4".toList, region := [], latency := 30, speed := 500 } ∧
    selectBest
      [{ ip := "1.2.3.4".toList, region := [], latency := 0, speed := 0 },
       { ip := "5.6.7.8".toList, region := [], latency := 0, speed := 0 }]
      [{ ip := "5.6.7.8".toList, region := [], latency := 30, speed := 500 },
       { ip := "1.2.3.4".toList, region := [], latency := 30, speed := 500 }] =
      some { ip := "5.6.7.8".toList, region := [], latency := 30, speed := 500 } ∧
    ({ ip := "1.2.3.4".toList, region := [], latency := 30, speed := 500 } : CDNNode) ≠
      { ip := "5.6.7.8".toList, region := [], latency := 30, speed := 500 } := by
  have hp : probeAll (fun _ => some (3/100)) (fun _ => some (9/1024, 4500))
      [{ ip := "1.2.3.4".toList, region := [], latency := 0, speed := 0 },
       { ip := "5.6.7.8".toList, region := [], latency := 0, speed := 0 }] =
      [{ ip := "1.2.3.4".toList, region := [], latency := 30, speed := 500 },
       { ip := "5.6.7.8".toList, region := [], latency := 30, speed := 500 }] := by
    simp +decide only [probeAll, List.map, probeNode, testLatency, testDownloadSpeed]
    norm_num
  rw [hp]
  refine ⟨by decide, by decide, by decide, by decide⟩

/-- C4 (amended): ties are broken by completion order (the first arrival
among the minimum-latency results wins), so the choice is only independent
of completion order when the positive-latency minimum is unique; in that
case every completion order yields the same selection. -/
theorem c4_deterministic_of_unique_min (nodes results a1 a2 : List CDNNode)
    (b : CDNNode) (h1 : a1.Perm results) (h2 : a2.Perm results)
    (hmem : b ∈ results) (hpos : 0 < b.latency) (hlt : b.latency < 1000)
    (hmin : ∀ n ∈ results, 0 < n.latency →
      b.latency ≤ n.latency ∧ (n.latency = b.latency → n = b)) :
    selectBest nodes a1 = selectBest nodes a2 := by
  by_cases hne : nodes = []
  · subst hne
    rw [selectBest, selectBest, findBestCDNNode, if_pos rfl, findBestCDNNode, if_pos rfl]
  · have hloop : ∀ a : List CDNNode, a.Perm results → selectLoop initialBest a = b := by
      intro a ha
      refine selectLoop_eq_of_min a initialBest b (ha.mem_iff.mpr hmem) hpos ?_ ?_
      · show b.latency < (1000 : ℚ)
        exact hlt
      · intro n hn
        exact hmin n (ha.subset hn)
    rw [selectBest, selectBest, findBestCDNNode, if_neg hne, findBestCDNNode, if_neg hne,
      hloop a1 h1, hloop a2 h2]

/-- C4 witness: a unique 30 ms minimum selected identically under two
different completion orders. -/
theorem c4_witness :
    selectBest [{ ip := "9.9.9.9".toList, region := [], latency := 0, speed := 0 }]
      [{ ip := "1.2.3.4".toList, region := [], latency := 50, speed := 500 },
       { ip := "5.6.7.8".toList, region := [], latency := 30, speed := 500 }] =
    selectBest [{ ip := "9.9.9.9".toList, region := [], latency := 0, speed := 0 }]
      [{ ip := "5.6.7.8".toList, region := [], latency := 30, speed := 500 },
       { ip := "1.2.3.4".toList, region := [], latency := 50, speed := 500 }] :=
  c4_deterministic_of_unique_min
    [{ ip := "9.9.9.9".toList, region := [], latency := 0, speed := 0 }]
    [{ ip := "1.2.3.4".toList, region := [], latency := 50, speed := 500 },
     { ip := "5.6.7.8".toList, region := [], latency := 30, speed := 500 }]
    [{ ip := "1.2.3.4".toList, region := [], latency := 50, speed := 500 },
     { ip := "5.6.7.8".toList, region := [], latency := 30, speed := 500 }]
    [{ ip := "5.6.7.8".toList, region := [], latency := 30, speed := 500 },
     { ip := "1.2.3.4".toList, region := [], latency := 50, speed := 500 }]
    { ip := "5.6.7.8".toList, region := [], latency := 30, speed := 500 }
    (List.Perm.refl _) (by decide) (by decide) (by decide) (by decide) (by decide)

/-- C5: the probe engine produces exactly one result per input candidate,
in correspondence with the input positions; a candidate whose dial fails
still contributes a result, encoded with latency `-1` rather than being
dropped; and the fan-in `selectLoop` of `findBestCDNNode` folds over the
entire arrival list, whose length always equals the input length for any
completion order. -/
theorem c5_probeAll_one_result_per_candidate (connect : Str → Option ℚ)
    (download : Str → Option (ℚ × ℕ)) (nodes : List CDNNode) :
    (probeAll connect download nodes).length = nodes.length ∧
    (∀ i : ℕ, (probeAll connect download nodes)[i]? =
      (nodes[i]?).map (probeNode connect download)) ∧
    (∀ n ∈ nodes, connect n.ip = none →
      probeNode connect download n ∈ probeAll connect download nodes ∧
      (probeNode connect download n).latency = -1) ∧
    (∀ arrivals : List CDNNode,
      arrivals.Perm (probeAll connect download nodes) →
      arrivals.length = nodes.length) := by
  refine ⟨List.length_map nodes _, fun i => List.getElem?_map _ nodes i, ?_, ?_⟩
  · intro n hn hc
    constructor
    · exact List.mem_map_of_mem (probeNode connect download) hn
    · rw [probeNode_of_connect_none connect download n hc]
  · intro arrivals hperm
    rw [hperm.length_eq, probeAll, List.length_map]

/-- C5 witness: two candidates, one reachable, yield exactly two results
with the unreachable one encoded as latency `-1`. -/
theorem c5_witness :
    (probeAll
      (fun ip => if ip = "1.2.3.4".toList then none else some (3/100))
      (fun _ => some (9/1024, 4500))
      [{ ip := "1.2.3.4".toList, region := [], latency := 0, speed := 0 },
       { ip := "5.6.7.8".toList, region := [], latency := 0, speed := 0 }]).length = 2 ∧
    (probeNode
      (fun ip => if ip = "1.2.3.4".toList then none else some (3/100))
      (fun _ => some (9/1024, 4500))
      { ip := "1.2.3.4".toList, region := [], latency := 0, speed := 0 }).latency = -1 :=
  ⟨((c5_probeAll_one_result_per_candidate
      (fun ip => if ip = "1.2.3.4".toList then none else some (3/100))
      (fun _ => some (9/1024, 4500))
      [{ ip := "1.2.3.4".toList, region := [], latency := 0, speed := 0 },
       { ip := "5.6.7.8".toList, region := [], latency := 0, speed := 0 }]).1).trans rfl,
   ((c5_probeAll_one_result_per_candidate
      (fun ip => if ip = "1.2.3.4".toList then none else some (3/100))
      (fun _ => some (9/1024, 4500))
      [{ ip := "1.2.3.4".toList, region := [], latency := 0, speed := 0 },
       { ip := "5.6.7.8".toList, region := [], latency := 0, speed := 0 }]).2.2.1
      { ip := "1.2.3.4".toList, region := [], latency := 0, speed := 0 }
      (by decide) (by decide)).2⟩

/-! ## findfastip.go: itdog ping analysis (`findFastestIP`) -/

/-- One entry of `PingResult.Data.NodeList`: node name, IP, timeout flag
and average latency, as decoded from the itdog JSON. -/
structure PingNode where
  nodeName : Str
  ip : Str
  timeout : ℤ
  avgTime : ℚ
deriving DecidableEq, Repr

/-- The character set of the domestic filter literal
`"北京上海广州深圳成都"` in `findFastestIP`. -/
def domesticChars : Str := "北京上海广州深圳成都".toList

/-- `strings.ContainsAny(node.NodeName, "北京上海广州深圳成都")`: true iff
any single character of the literal occurs in the node name. -/
def containsAnyDomestic (name : Str) : Bool :=
  name.any fun c => domesticChars.contains c

/-- Appending a delay to the Go map `ips[node.IP]`, keeping first-insertion
order for the association list that models the map. -/
def insertDelay (ip : Str) (d : ℚ) : List (Str × List ℚ) → List (Str × List ℚ)
  | [] => [(ip, [d])]
  | (k, ds) :: rest =>
      if k = ip then (k, ds ++ [d]) :: rest else (k, ds) :: insertDelay ip d rest

/-- The collection loop of `findFastestIP`: skip nodes with
`Timeout > 0`, keep nodes whose name passes the domestic-character filter,
and group their average times by IP. -/
def collectIPs (nodes : List PingNode) : List (Str × List ℚ) :=
  nodes.foldl
    (fun acc n =>
      if 0 < n.timeout then acc
      else if containsAnyDomestic n.nodeName then insertDelay n.ip n.avgTime acc
      else acc) []

/-- The per-IP average `sum / len(delays)` of `findFastestIP`. -/
def avgOf (ds : List ℚ) : ℚ := ds.sum / (ds.length : ℚ)

/-- The minimum-average loop of `findFastestIP`, starting from
`bestIP = ""` and `minAvg = 1000.0`.  The Go map iteration order is
modelled by the insertion order of `collectIPs`; only tie-breaking—which
no claim touches—depends on it. -/
def minLoop (ips : List (Str × List ℚ)) : Str × ℚ :=
  ips.foldl (fun best p => if avgOf p.2 < best.2 then (p.1, avgOf p.2) else best) ([], 1000)

/-- `findFastestIP` from `findfastip.go`.  `validIP` models the external
`net.ParseIP` validity check (standard-library code outside this
repository). -/
def findFastestIP (validIP : Str → Bool) (nodes : List PingNode) : Except Str Str :=
  if (minLoop (collectIPs nodes)).1 = [] then
    Except.error "未找到低延迟的国内IP".toList
  else if validIP (minLoop (collectIPs nodes)).1 = true then
    Except.ok (minLoop (collectIPs nodes)).1
  else
    Except.error ("无效IP地址: ".toList ++ (minLoop (collectIPs nodes)).1)

/-- The per-domain step of `main` in `findfastip.go`: a successful lookup
is inserted into `ipMap`; an error is only logged and the domain is
skipped — there is no other fallback. -/
def mainStep (result : Except Str Str) (domain : Str)
    (ipMap : List (Str × Str)) : List (Str × Str) :=
  match result with
  | Except.ok ip => ipMap ++ [(domain, ip)]
  | Except.error _ => ipMap

/-- All-filtered node lists leave the grouping accumulator untouched. -/
theorem collectIPs_eq_nil (nodes : List PingNode)
    (h : ∀ n ∈ nodes, 0 < n.timeout ∨ containsAnyDomestic n.nodeName = false) :
    collectIPs nodes = [] := by
  have key : ∀ acc : List (Str × List ℚ),
      nodes.foldl
        (fun acc n =>
          if 0 < n.timeout then acc
          else if containsAnyDomestic n.nodeName then insertDelay n.ip n.avgTime acc
          else acc) acc = acc := by
    induction nodes with
    | nil => intro acc; rfl
    | cons n rest ih =>
        intro acc
        have hstep : (if 0 < n.timeout then acc
            else if containsAnyDomestic n.nodeName then insertDelay n.ip n.avgTime acc
            else acc) = acc := by
          rcases h n (List.mem_cons_self n rest) with h1 | h1
          · rw [if_pos h1]
          · by_cases ht : 0 < n.timeout
            · rw [if_pos ht]
            · rw [if_neg ht, h1]
              simp
        rw [List.foldl_cons, hstep]
        exact ih (fun x hx => h x (List.mem_cons_of_mem n hx)) acc
  exact key []

/-- C6 (amended): when the remote lookup returns entries but every one
fails the timeout or domestic filter, `findFastestIP` returns the error
`未找到低延迟的国内IP` — not an empty candidate set — and the caller merely
skips the domain, leaving `ipMap` unchanged; no static fallback table is
consulted. -/
theorem c6_all_filtered_is_error (validIP : Str → Bool) (nodes : List PingNode)
    (domain : Str) (ipMap : List (Str × Str))
    (h : ∀ n ∈ nodes, 0 < n.timeout ∨ containsAnyDomestic n.nodeName = false) :
    findFastestIP validIP nodes = Except.error "未找到低延迟的国内IP".toList ∧
    mainStep (findFastestIP validIP nodes) domain ipMap = ipMap := by
  have hc : collectIPs nodes = [] := collectIPs_eq_nil nodes h
  have he : findFastestIP validIP nodes = Except.error "未找到低延迟的国内IP".toList := by
    rw [findFastestIP, hc]
    rfl
  refine ⟨he, ?_⟩
  rw [he]
  rfl

/-- C6 witness: a node list whose single entry is a foreign node. -/
theorem c6_witness :
    findFastestIP (fun _ => true)
      [{ nodeName := "NewYork".toList, ip := "9.9.9.9".toList, timeout := 0, avgTime := 10 }] =
      Except.error "未找到低延迟的国内IP".toList ∧
    mainStep
      (findFastestIP (fun _ => true)
        [{ nodeName := "NewYork".toList, ip := "9.9.9.9".toList, timeout := 0, avgTime := 10 }])
      "github.com".toList [] = [] :=
  c6_all_filtered_is_error (fun _ => true)
    [{ nodeName := "NewYork".toList, ip := "9.9.9.9".toList, timeout := 0, avgTime := 10 }]
    "github.com".toList []
    (by decide)

/-- C6 (counterexample): the same all-filtered input produces an `error`
result, refuting "treats this as zero candidates rather than an error",
and the caller's map stays empty — no static-table entry appears. -/
theorem c6_counterexample :
    (∃ e, findFastestIP (fun _ => true)
      [{ nodeName := "NewYork".toList, ip := "9.9.9.9".toList, timeout := 0, avgTime := 10 }] =
      Except.error e) ∧
    mainStep
      (findFastestIP (fun _ => true)
        [{ nodeName := "NewYork".toList, ip := "9.9.9.9".toList, timeout := 0, avgTime := 10 }])
      "github.com".toList [] = [] := by
  have hc : collectIPs
      [{ nodeName := "NewYork".toList, ip := "9.9.9.9".toList, timeout := 0, avgTime := 10 }] = [] := by
    decide
  have he : findFastestIP (fun _ => true)
      [{ nodeName := "NewYork".toList, ip := "9.9.9.9".toList, timeout := 0, avgTime := 10 }] =
      Except.error "未找到低延迟的国内IP".toList := by
    rw [findFastestIP, hc]
    rfl
  refine ⟨⟨"未找到低延迟的国内IP".toList, he⟩, ?_⟩
  rw [he]
  rfl

/-- C9: the domestic filter of `findFastestIP` is character-granular: a
node name passes iff it shares at least one single character with
`北京上海广州深圳成都`; in particular `海口`, which is none of the city
labels 北京/上海/广州/深圳/成都, passes because it contains `海`. -/
theorem c9_filter_matches_single_characters :
    (∀ name : Str, containsAnyDomestic name = true ↔
      ∃ c, c ∈ name ∧ c ∈ domesticChars) ∧
    containsAnyDomestic "海口".toList = true := by
  constructor
  · intro name
    simp [containsAnyDomestic, List.any_eq_true]
  · decide

/-! ## findfastip.go: hosts-file update (`updateHosts`)

`updateHosts` scans the hosts file line by line: each line is
`strings.TrimSpace`d; comment lines (leading `#`) and lines with fewer
than two fields are appended to the output as-is (i.e. in trimmed form);
otherwise the hostname fields `fields[1:]` are scanned for the first one
present in `ipMap` — on a hit the line is either rewritten as
`newIP + " " + strings.Join(fields[1:], " ")` (with an "updated" log) or
kept (with a "no-op" log), the domain is marked existing, and the scan of
that line stops.  Afterwards every unmarked map entry is appended as
`"<ip> <domain>"`.  The rewritten file is each output line followed by a
newline (`fmt.Fprintln`). -/

/-- Go `unicode.IsSpace` restricted to Latin-1, which is the full check Go
performs for Latin-1 code points: `'\t' '\n' '\v' '\f' '\r' ' '
U+0085 U+00A0`.  (Non-Latin-1 Unicode space characters are not modelled;
no claim involves them.) -/
def goIsSpace (c : Char) : Bool :=
  c = ' ' || c = '\t' || c = '\n' || c.val = 11 || c.val = 12 || c = '\r' ||
    c.val = 133 || c.val = 160

/-- Leading-whitespace trim. -/
def trimLeft (s : Str) : Str := s.dropWhile goIsSpace

/-- Trailing-whitespace trim. -/
def trimRight : Str → Str
  | [] => []
  | c :: rest =>
      if (trimRight rest).isEmpty && goIsSpace c then [] else c :: trimRight rest

/-- `strings.TrimSpace`. -/
def trimSpace (s : Str) : Str := trimRight (trimLeft s)

/-- Accumulator-passing worker for `strings.Fields`: `acc` holds the
current field, reversed. -/
def fieldsAux : Str → Str → List Str
  | [], acc => if acc.isEmpty then [] else [acc.reverse]
  | c :: rest, acc =>
      if goIsSpace c then
        if acc.isEmpty then fieldsAux rest [] else acc.reverse :: fieldsAux rest []
      else fieldsAux rest (c :: acc)

/-- `strings.Fields`: split around runs of whitespace. -/
def fields (s : Str) : List Str := fieldsAux s []

/-- `strings.Join(elems, " ")`. -/
def joinSpace : List Str → Str
  | [] => []
  | [w] => w
  | w :: ws => w ++ ' ' :: joinSpace ws

/-- Lookup in the Go map `ipMap`, modelled on the association list. -/
def lookupIP : List (Str × Str) → Str → Option Str
  | [], _ => none
  | (k, v) :: rest, d => if k = d then some v else lookupIP rest d

/-- The first hostname among `fields[1:]` that is present in `ipMap`,
together with its mapped address — the Go inner loop with its `break`. -/
def firstMapped (m : List (Str × Str)) : List Str → Option (Str × Str)
  | [] => none
  | d :: rest =>
      match lookupIP m d with
      | some ip => some (d, ip)
      | none => firstMapped m rest

/-- The three console messages `updateHosts` can print per entry. -/
inductive LogEvent where
  | updated : Str → Str → LogEvent
  | noop : Str → LogEvent
  | added : Str → Str → LogEvent
deriving DecidableEq, Repr

/-- One iteration of the scanner loop of `updateHosts`: returns the
emitted output line, the log events printed, and the domains marked in
`existingDomains`. -/
def processLine (m : List (Str × Str)) (line : Str) : Str × List LogEvent × List Str :=
  if (trimSpace line).head? = some '#' then (trimSpace line, [], [])
  else if 2 ≤ (fields (trimSpace line)).length then
    match firstMapped m (fields (trimSpace line)).tail with
    | none => (trimSpace line, [], [])
    | some (d, newIP) =>
        if (fields (trimSpace line)).head? = some newIP then
          (trimSpace line, [LogEvent.noop d], [d])
        else
          (joinSpace (newIP :: (fields (trimSpace line)).tail),
           [LogEvent.updated d newIP], [d])
  else (trimSpace line, [], [])

/-- The output lines of the scanner phase. -/
def processedLines (m : List (Str × Str)) (lines : List Str) : List Str :=
  lines.map fun l => (processLine m l).1

/-- The log events of the scanner phase. -/
def processLogs (m : List (Str × Str)) (lines : List Str) : List LogEvent :=
  (lines.map fun l => (processLine m l).2.1).flatten

/-- The `existingDomains` set accumulated by the scanner phase. -/
def existingDomains (m : List (Str × Str)) (lines : List Str) : List Str :=
  (lines.map fun l => (processLine m l).2.2).flatten

/-- The map entries not marked existing, in map iteration order
(modelled by the association-list order). -/
def missingPairs (m : List (Str × Str)) (lines : List Str) : List (Str × Str) :=
  m.filter fun p => !(existingDomains m lines).contains p.1

/-- `updateHosts` from `findfastip.go`, as a pure function from the
scanned input lines and the `ipMap` to the output lines and the log. -/
def updateHosts (m : List (Str × Str)) (lines : List Str) :
    List Str × List LogEvent :=
  (processedLines m lines ++ (missingPairs m lines).map fun p => joinSpace [p.2, p.1],
   processLogs m lines ++ (missingPairs m lines).map fun p => LogEvent.added p.1 p.2)

/-- The bytes written back: `fmt.Fprintln` emits each line plus `'\n'`. -/
def render (lines : List Str) : Str :=
  lines.foldr (fun l acc => l ++ '\n' :: acc) []

/-- Newline split producing the part before each `'\n'`, the part after
the last one included (so a trailing newline yields a trailing empty
part). -/
def splitNL : Str → List Str
  | [] => [[]]
  | c :: rest =>
      if c = '\n' then [] :: splitNL rest
      else
        match splitNL rest with
        | [] => [[c]]
        | p :: ps => (c :: p) :: ps

/-- `bufio.ScanLines` strips one trailing carriage return per line. -/
def dropCR (s : Str) : Str :=
  if s.getLast? = some '\r' then s.dropLast else s

/-- `bufio.Scanner` with `ScanLines`: tokens are newline-separated lines,
a final newline produces no empty token, and each token loses one
trailing `'\r'`. -/
def scanLines (s : Str) : List Str :=
  (if (splitNL s).getLast? = some [] then (splitNL s).dropLast else splitNL s).map dropCR

/-! ### Trimming and field-splitting lemmas -/

theorem trimLeft_cons_space (c : Char) (rest : Str) (h : goIsSpace c = true) :
    trimLeft (c :: rest) = trimLeft rest := by
  rw [trimLeft, List.dropWhile_cons, if_pos h]
  rfl

theorem trimLeft_cons_nospace (c : Char) (rest : Str) (h : goIsSpace c = false) :
    trimLeft (c :: rest) = c :: rest := by
  rw [trimLeft, List.dropWhile_cons, if_neg (by rw [h]; exact Bool.false_ne_true)]

theorem trimRight_cons (c : Char) (rest : Str) :
    trimRight (c :: rest) =
      if ((trimRight rest).isEmpty && goIsSpace c) = true then [] else c :: trimRight rest :=
  rfl

theorem fieldsAux_nil (acc : Str) :
    fieldsAux [] acc = if acc.isEmpty = true then [] else [acc.reverse] :=
  rfl

theorem fieldsAux_cons (c : Char) (rest : Str) (acc : Str) :
    fieldsAux (c :: rest) acc =
      if goIsSpace c = true then
        (if acc.isEmpty = true then fieldsAux rest [] else acc.reverse :: fieldsAux rest [])
      else fieldsAux rest (c :: acc) :=
  rfl

theorem trimLeft_idem (s : Str) : trimLeft (trimLeft s) = trimLeft s := by
  induction s with
  | nil => rfl
  | cons c rest ih =>
      by_cases hc : goIsSpace c = true
      · rw [trimLeft_cons_space c rest hc]
        exact ih
      · have hc' := Bool.eq_false_iff.mpr hc
        rw [trimLeft_cons_nospace c rest hc', trimLeft_cons_nospace c rest hc']

theorem trimRight_idem (s : Str) : trimRight (trimRight s) = trimRight s := by
  induction s with
  | nil => rfl
  | cons c rest ih =>
      rw [trimRight_cons]
      by_cases hc : ((trimRight rest).isEmpty && goIsSpace c) = true
      · rw [if_pos hc]
        rfl
      · rw [if_neg hc, trimRight_cons, ih, if_neg hc]

theorem trimLeft_trimRight (s : Str) (h : trimLeft s = s) :
    trimLeft (trimRight s) = trimRight s := by
  cases s with
  | nil => rfl
  | cons c rest =>
      by_cases hc : goIsSpace c = true
      · exfalso
        rw [trimLeft_cons_space c rest hc] at h
        have hlen := (List.dropWhile_sublist (l := rest) goIsSpace).length_le
        rw [show List.dropWhile goIsSpace rest = trimLeft rest from rfl, h] at hlen
        simp at hlen
      · have hc' := Bool.eq_false_iff.mpr hc
        rw [trimRight_cons]
        by_cases hemp : ((trimRight rest).isEmpty && goIsSpace c) = true
        · rw [if_pos hemp]
          rfl
        · rw [if_neg hemp, trimLeft_cons_nospace c (trimRight rest) hc']

theorem trimSpace_idem (s : Str) : trimSpace (trimSpace s) = trimSpace s := by
  rw [trimSpace, trimSpace, trimLeft_trimRight (trimLeft s) (trimLeft_idem s),
    trimRight_idem]

theorem trimRight_sublist (s : Str) : List.Sublist (trimRight s) s := by
  induction s with
  | nil => exact List.Sublist.refl []
  | cons c rest ih =>
      rw [trimRight_cons]
      by_cases hc : ((trimRight rest).isEmpty && goIsSpace c) = true
      · rw [if_pos hc]
        exact List.nil_sublist _
      · rw [if_neg hc]
        exact ih.cons₂ c

theorem trimSpace_sublist (s : Str) : List.Sublist (trimSpace s) s :=
  (trimRight_sublist (trimLeft s)).trans (List.dropWhile_sublist goIsSpace)

theorem trimRight_eq_nil_all_space (s : Str) (h : trimRight s = []) :
    ∀ c ∈ s, goIsSpace c = true := by
  induction s with
  | nil => intro c hc; cases hc
  | cons c rest ih =>
      rw [trimRight_cons] at h
      by_cases hc : ((trimRight rest).isEmpty && goIsSpace c) = true
      · obtain ⟨hemp, hsp⟩ := Bool.and_eq_true_iff.mp hc
        intro x hx
        rcases List.mem_cons.mp hx with rfl | hx
        · exact hsp
        · exact ih (List.isEmpty_iff.mp hemp) x hx
      · rw [if_neg hc] at h
        cases h

theorem trimRight_last_not_space (s : Str) (h : trimRight s = s) :
    ∀ c, s.getLast? = some c → goIsSpace c = false := by
  induction s with
  | nil => intro c hc; cases hc
  | cons a rest ih =>
      intro c hc
      rw [trimRight_cons] at h
      by_cases hcond : ((trimRight rest).isEmpty && goIsSpace a) = true
      · rw [if_pos hcond] at h
        cases h
      · rw [if_neg hcond] at h
        have hrest : trimRight rest = rest := (List.cons_eq_cons.mp h).2
        cases rest with
        | nil =>
            have hac : a = c := by
              rw [List.getLast?_singleton] at hc
              exact Option.some_inj.mp hc
            subst hac
            rw [hrest] at hcond
            by_cases hsp : goIsSpace a = true
            · exfalso
              apply hcond
              rw [hsp]
              rfl
            · exact Bool.eq_false_iff.mpr hsp
        | cons b rest2 =>
            apply ih hrest
            rw [List.getLast?_cons_cons] at hc
            exact hc

theorem fieldsAux_all_space (s : Str) (h : ∀ c ∈ s, goIsSpace c = true) :
    fieldsAux s [] = [] := by
  induction s with
  | nil => rfl
  | cons c rest ih =>
      rw [fieldsAux_cons, if_pos (h c (List.mem_cons_self c rest))]
      rw [if_pos List.isEmpty_nil]
      exact ih fun x hx => h x (List.mem_cons_of_mem c hx)

theorem fieldsAux_trimRight (s : Str) :
    ∀ acc, fieldsAux (trimRight s) acc = fieldsAux s acc := by
  induction s with
  | nil => intro acc; rfl
  | cons c rest ih =>
      intro acc
      rw [trimRight_cons]
      by_cases hcond : ((trimRight rest).isEmpty && goIsSpace c) = true
      · rw [if_pos hcond]
        obtain ⟨hemp, hsp⟩ := Bool.and_eq_true_iff.mp hcond
        have hall := trimRight_eq_nil_all_space rest (List.isEmpty_iff.mp hemp)
        rw [fieldsAux_nil, fieldsAux_cons, if_pos hsp, fieldsAux_all_space rest hall]
      · rw [if_neg hcond, fieldsAux_cons, fieldsAux_cons]
        by_cases hsp : goIsSpace c = true
        · rw [if_pos hsp, if_pos hsp, ih]
        · rw [if_neg hsp, if_neg hsp, ih]

theorem fieldsAux_trimLeft (s : Str) : fieldsAux (trimLeft s) [] = fieldsAux s [] := by
  induction s with
  | nil => rfl
  | cons c rest ih =>
      by_cases hc : goIsSpace c = true
      · rw [trimLeft_cons_space c rest hc, ih, fieldsAux_cons, if_pos hc, if_pos List.isEmpty_nil]
      · rw [trimLeft_cons_nospace c rest (Bool.eq_false_iff.mpr hc)]

theorem fields_trimSpace (s : Str) : fields (trimSpace s) = fields s := by
  rw [fields, fields, trimSpace, fieldsAux_trimRight, fieldsAux_trimLeft]

theorem fieldsAux_mem_wf (s : Str) :
    ∀ acc, (∀ c ∈ acc, goIsSpace c = false) →
      ∀ w ∈ fieldsAux s acc, w ≠ [] ∧ ∀ c ∈ w, goIsSpace c = false := by
  induction s with
  | nil =>
      intro acc hacc w hw
      rw [fieldsAux_nil] at hw
      by_cases hemp : acc.isEmpty = true
      · rw [if_pos hemp] at hw
        cases hw
      · rw [if_neg hemp] at hw
        rcases List.mem_singleton.mp hw with rfl
        constructor
        · intro h
          apply hemp
          rw [List.isEmpty_iff]
          simpa using congrArg List.reverse h
        · intro c hc
          exact hacc c (List.mem_reverse.mp hc)
  | cons a rest ih =>
      intro acc hacc w hw
      rw [fieldsAux_cons] at hw
      by_cases hsp : goIsSpace a = true
      · rw [if_pos hsp] at hw
        by_cases hemp : acc.isEmpty = true
        · rw [if_pos hemp] at hw
          exact ih [] (fun c hc => by cases hc) w hw
        · rw [if_neg hemp] at hw
          rcases List.mem_cons.mp hw with rfl | hw
          · constructor
            · intro h
              apply hemp
              rw [List.isEmpty_iff]
              simpa using congrArg List.reverse h
            · intro c hc
              exact hacc c (List.mem_reverse.mp hc)
          · exact ih [] (fun c hc => by cases hc) w hw
      · rw [if_neg hsp] at hw
        refine ih (a :: acc) ?_ w hw
        intro c hc
        rcases List.mem_cons.mp hc with rfl | hc
        · exact Bool.eq_false_iff.mpr hsp
        · exact hacc c hc

theorem fields_wf (s : Str) :
    ∀ w ∈ fields s, w ≠ [] ∧ ∀ c ∈ w, goIsSpace c = false :=
  fieldsAux_mem_wf s [] fun c hc => by cases hc

/-! ### Joining lemmas -/

theorem joinSpace_cons_cons (w x : Str) (ws : List Str) :
    joinSpace (w :: x :: ws) = w ++ ' ' :: joinSpace (x :: ws) :=
  rfl

theorem trimRight_of_nospace (w : Str) (h : ∀ c ∈ w, goIsSpace c = false) :
    trimRight w = w := by
  induction w with
  | nil => rfl
  | cons c rest ih =>
      rw [trimRight_cons, if_neg, ih fun x hx => h x (List.mem_cons_of_mem c hx)]
      intro hcon
      rcases Bool.and_eq_true_iff.mp hcon with ⟨_, hsp⟩
      rw [h c (List.mem_cons_self c rest)] at hsp
      cases hsp

theorem trimRight_append (a b : Str) :
    trimRight (a ++ b) =
      if trimRight b = [] then trimRight a else a ++ trimRight b := by
  induction a with
  | nil =>
      by_cases hb : trimRight b = []
      · rw [List.nil_append, if_pos hb, hb]
        rfl
      · rw [List.nil_append, if_neg hb, List.nil_append]
  | cons c a' ih =>
      rw [List.cons_append, trimRight_cons, ih]
      by_cases hb : trimRight b = []
      · rw [if_pos hb, if_pos hb, trimRight_cons]
      · rw [if_neg hb, if_neg hb, List.cons_append]
        rw [if_neg]
        intro hcon
        rcases Bool.and_eq_true_iff.mp hcon with ⟨hemp, _⟩
        rcases List.append_eq_nil.mp (List.isEmpty_iff.mp hemp) with ⟨_, h2⟩
        exact hb h2

theorem joinSpace_ne_nil (ws : List Str) (hne : ws ≠ [])
    (hw : ∀ w ∈ ws, w ≠ []) : joinSpace ws ≠ [] := by
  cases ws with
  | nil => exact absurd rfl hne
  | cons w ws' =>
      cases ws' with
      | nil => exact hw w (List.mem_cons_self w [])
      | cons x ws2 =>
          rw [joinSpace_cons_cons]
          intro hcon
          rcases List.append_eq_nil.mp hcon with ⟨_, h2⟩
          cases h2

theorem joinSpace_head? (w : Str) (ws : List Str) (hw : w ≠ []) :
    (joinSpace (w :: ws)).head? = w.head? := by
  cases ws with
  | nil => rfl
  | cons x ws' =>
      rw [joinSpace_cons_cons]
      cases w with
      | nil => exact absurd rfl hw
      | cons c w' => rfl

theorem trimLeft_of_head_nospace (s : Str)
    (h : ∀ c, s.head? = some c → goIsSpace c = false) : trimLeft s = s := by
  cases s with
  | nil => rfl
  | cons c rest =>
      exact trimLeft_cons_nospace c rest (h c rfl)

theorem trimRight_joinSpace (ws : List Str)
    (hw : ∀ w ∈ ws, w ≠ [] ∧ ∀ c ∈ w, goIsSpace c = false) :
    trimRight (joinSpace ws) = joinSpace ws := by
  induction ws with
  | nil => rfl
  | cons w ws' ih =>
      cases ws' with
      | nil => exact trimRight_of_nospace w (hw w (List.mem_cons_self w [])).2
      | cons x ws2 =>
          rw [joinSpace_cons_cons, trimRight_append]
          have hrest : trimRight (' ' :: joinSpace (x :: ws2)) =
              ' ' :: joinSpace (x :: ws2) := by
            rw [trimRight_cons, if_neg, ih fun y hy => hw y (List.mem_cons_of_mem w hy)]
            intro hcon
            rcases Bool.and_eq_true_iff.mp hcon with ⟨hemp, _⟩
            rw [ih fun y hy => hw y (List.mem_cons_of_mem w hy)] at hemp
            exact joinSpace_ne_nil (x :: ws2) (List.cons_ne_nil x ws2)
              (fun y hy => (hw y (List.mem_cons_of_mem w hy)).1)
              (List.isEmpty_iff.mp hemp)
          rw [hrest, if_neg (List.cons_ne_nil _ _)]

theorem trimSpace_joinSpace (ws : List Str) (hne : ws ≠ [])
    (hw : ∀ w ∈ ws, w ≠ [] ∧ ∀ c ∈ w, goIsSpace c = false) :
    trimSpace (joinSpace ws) = joinSpace ws := by
  have hleft : trimLeft (joinSpace ws) = joinSpace ws := by
    apply trimLeft_of_head_nospace
    intro c hc
    cases ws with
    | nil => exact absurd rfl hne
    | cons w ws' =>
        rw [joinSpace_head? w ws' (hw w (List.mem_cons_self w ws')).1] at hc
        exact (hw w (List.mem_cons_self w ws')).2 c (List.mem_of_mem_head? hc)
  rw [trimSpace, hleft]
  exact trimRight_joinSpace ws hw

theorem fieldsAux_append_word (w : Str) (s : Str)
    (hw : ∀ c ∈ w, goIsSpace c = false) :
    ∀ acc, fieldsAux (w ++ s) acc = fieldsAux s (w.reverse ++ acc) := by
  induction w with
  | nil => intro acc; rfl
  | cons c w' ih =>
      intro acc
      have hcsp : ¬ goIsSpace c = true := by
        rw [hw c (List.mem_cons_self c w')]
        exact Bool.false_ne_true
      rw [List.cons_append, fieldsAux_cons, if_neg hcsp,
        ih (fun x hx => hw x (List.mem_cons_of_mem c hx)) (c :: acc),
        List.reverse_cons, List.append_assoc]
      rfl

theorem fields_joinSpace (ws : List Str)
    (hw : ∀ w ∈ ws, w ≠ [] ∧ ∀ c ∈ w, goIsSpace c = false) :
    fields (joinSpace ws) = ws := by
  induction ws with
  | nil => rfl
  | cons w ws' ih =>
      cases ws' with
      | nil =>
          show fields w = [w]
          have hw1 := hw w (List.mem_cons_self w [])
          have h1 : fieldsAux (w ++ []) [] = fieldsAux [] (w.reverse ++ []) :=
            fieldsAux_append_word w [] hw1.2 []
          rw [List.append_nil, List.append_nil] at h1
          rw [fields, h1, fieldsAux_nil, if_neg, List.reverse_reverse]
          intro hemp
          exact hw1.1 (by simpa using List.isEmpty_iff.mp hemp)
      | cons x ws2 =>
          have hw1 := hw w (List.mem_cons_self w (x :: ws2))
          have h1 : fieldsAux (w ++ (' ' :: joinSpace (x :: ws2))) [] =
              fieldsAux (' ' :: joinSpace (x :: ws2)) (w.reverse ++ []) :=
            fieldsAux_append_word w _ hw1.2 []
          rw [List.append_nil] at h1
          rw [joinSpace_cons_cons, fields, h1, fieldsAux_cons,
            if_pos (by decide : goIsSpace ' ' = true), if_neg, List.reverse_reverse]
          · rw [show fieldsAux (joinSpace (x :: ws2)) [] =
                fields (joinSpace (x :: ws2)) from rfl,
              ih fun y hy => hw y (List.mem_cons_of_mem w hy)]
          · intro hemp
            exact hw1.1 (by simpa using List.isEmpty_iff.mp hemp)

theorem mem_joinSpace (ws : List Str) (c : Char) (h : c ∈ joinSpace ws) :
    c = ' ' ∨ ∃ w ∈ ws, c ∈ w := by
  induction ws with
  | nil => cases h
  | cons w ws' ih =>
      cases ws' with
      | nil => exact Or.inr ⟨w, List.mem_cons_self w [], h⟩
      | cons x ws2 =>
          rw [joinSpace_cons_cons] at h
          rcases List.mem_append.mp h with h1 | h1
          · exact Or.inr ⟨w, List.mem_cons_self w _, h1⟩
          · rcases List.mem_cons.mp h1 with rfl | h2
            · exact Or.inl rfl
            · rcases ih h2 with h3 | ⟨y, hy, hcy⟩
              · exact Or.inl h3
              · exact Or.inr ⟨y, List.mem_cons_of_mem w hy, hcy⟩

/-! ### Lookup lemmas -/

theorem lookupIP_mem (m : List (Str × Str)) (d v : Str)
    (h : lookupIP m d = some v) : (d, v) ∈ m := by
  induction m with
  | nil => cases h
  | cons p rest ih =>
      rcases p with ⟨k, w⟩
      rw [lookupIP] at h
      by_cases hk : k = d
      · rw [if_pos hk] at h
        rcases Option.some_inj.mp h with rfl
        rw [hk]
        exact List.mem_cons_self _ _
      · rw [if_neg hk] at h
        exact List.mem_cons_of_mem _ (ih h)

theorem lookupIP_isSome_of_key (m : List (Str × Str)) (d v : Str)
    (h : (d, v) ∈ m) : ∃ w, lookupIP m d = some w := by
  induction m with
  | nil => cases h
  | cons p rest ih =>
      rcases p with ⟨k, u⟩
      rw [lookupIP]
      by_cases hk : k = d
      · exact ⟨u, if_pos hk⟩
      · rw [if_neg hk]
        rcases List.mem_cons.mp h with heq | hmem
        · exact absurd (congrArg Prod.fst heq).symm hk
        · exact ih hmem

theorem lookupIP_eq_of_nodup (m : List (Str × Str)) (d v : Str)
    (hnd : (m.map Prod.fst).Nodup) (h : (d, v) ∈ m) :
    lookupIP m d = some v := by
  induction m with
  | nil => cases h
  | cons p rest ih =>
      rcases p with ⟨k, u⟩
      rw [List.map_cons, List.nodup_cons] at hnd
      rw [lookupIP]
      rcases List.mem_cons.mp h with heq | hmem
      · have h1 : d = k := congrArg Prod.fst heq
        have h2 : v = u := congrArg Prod.snd heq
        rw [if_pos h1.symm, h2]
      · by_cases hk : k = d
        · exfalso
          apply hnd.1
          have hd : d ∈ rest.map Prod.fst := List.mem_map_of_mem Prod.fst hmem
          rw [hk]
          exact hd
        · rw [if_neg hk]
          exact ih hnd.2 hmem

theorem firstMapped_congr (m1 m2 : List (Str × Str))
    (hlk : ∀ d, lookupIP m1 d = lookupIP m2 d) (hs : List Str) :
    firstMapped m1 hs = firstMapped m2 hs := by
  induction hs with
  | nil => rfl
  | cons d rest ih =>
      rw [firstMapped, firstMapped, hlk d, ih]

theorem firstMapped_spec (m : List (Str × Str)) (hs : List Str) (d ip : Str)
    (h : firstMapped m hs = some (d, ip)) :
    d ∈ hs ∧ lookupIP m d = some ip := by
  induction hs with
  | nil => cases h
  | cons x rest ih =>
      rw [firstMapped] at h
      cases hx : lookupIP m x with
      | some v =>
          rw [hx] at h
          have h1 : x = d := congrArg Prod.fst (Option.some_inj.mp h)
          have h2 : v = ip := congrArg Prod.snd (Option.some_inj.mp h)
          rw [← h1, ← h2]
          exact ⟨List.mem_cons_self x rest, hx⟩
      | none =>
          rw [hx] at h
          rcases ih h with ⟨h1, h2⟩
          exact ⟨List.mem_cons_of_mem x h1, h2⟩

/-! ### `processLine` case lemmas -/

/-- Well-formedness of a map entry: nonempty domain and address, neither
containing whitespace, and the address not starting a comment.  True of
every real `ipMap` entry (domains are fixed hostnames, addresses are
`net.ParseIP`-validated). -/
def wfPair (p : Str × Str) : Prop :=
  p.1 ≠ [] ∧ p.2 ≠ [] ∧ (∀ c ∈ p.1, goIsSpace c = false) ∧
    (∀ c ∈ p.2, goIsSpace c = false) ∧ p.2.head? ≠ some '#'

theorem processLine_comment (m : List (Str × Str)) (line : Str)
    (h : (trimSpace line).head? = some '#') :
    processLine m line = (trimSpace line, [], []) := by
  rw [processLine, if_pos h]

theorem processLine_short (m : List (Str × Str)) (line : Str)
    (h1 : ¬(trimSpace line).head? = some '#')
    (h2 : ¬2 ≤ (fields (trimSpace line)).length) :
    processLine m line = (trimSpace line, [], []) := by
  rw [processLine, if_neg h1, if_neg h2]

theorem processLine_nomatch (m : List (Str × Str)) (line : Str)
    (h1 : ¬(trimSpace line).head? = some '#')
    (h2 : 2 ≤ (fields (trimSpace line)).length)
    (h3 : firstMapped m (fields (trimSpace line)).tail = none) :
    processLine m line = (trimSpace line, [], []) := by
  rw [processLine, if_neg h1, if_pos h2, h3]

theorem processLine_noop (m : List (Str × Str)) (line : Str) (d newIP : Str)
    (h1 : ¬(trimSpace line).head? = some '#')
    (h2 : 2 ≤ (fields (trimSpace line)).length)
    (h3 : firstMapped m (fields (trimSpace line)).tail = some (d, newIP))
    (h4 : (fields (trimSpace line)).head? = some newIP) :
    processLine m line = (trimSpace line, [LogEvent.noop d], [d]) := by
  rw [processLine, if_neg h1, if_pos h2, h3]
  show (if (fields (trimSpace line)).head? = some newIP then
      ((trimSpace line : Str), [LogEvent.noop d], ([d] : List Str))
    else (joinSpace (newIP :: (fields (trimSpace line)).tail),
      [LogEvent.updated d newIP], [d])) = _
  rw [if_pos h4]

theorem processLine_updated (m : List (Str × Str)) (line : Str) (d newIP : Str)
    (h1 : ¬(trimSpace line).head? = some '#')
    (h2 : 2 ≤ (fields (trimSpace line)).length)
    (h3 : firstMapped m (fields (trimSpace line)).tail = some (d, newIP))
    (h4 : ¬(fields (trimSpace line)).head? = some newIP) :
    processLine m line =
      (joinSpace (newIP :: (fields (trimSpace line)).tail),
       [LogEvent.updated d newIP], [d]) := by
  rw [processLine, if_neg h1, if_pos h2, h3]
  show (if (fields (trimSpace line)).head? = some newIP then
      ((trimSpace line : Str), [LogEvent.noop d], ([d] : List Str))
    else (joinSpace (newIP :: (fields (trimSpace line)).tail),
      [LogEvent.updated d newIP], [d])) = _
  rw [if_neg h4]

/-! ### Claim theorems for `updateHosts` (pass-through and multi-hostname lines) -/

/-- C8 (counterexample): a comment line carrying leading whitespace is
written back trimmed, so the output is not byte-for-byte the input even
though no hostname of the line is in the map. -/
theorem c8_counterexample :
    (updateHosts [("github.com".toList, "9.9.9.9".toList)]
      ["  # c".toList, "9.9.9.9 github.com".toList]).1 ≠
      ["  # c".toList, "9.9.9.9 github.com".toList] ∧
    (updateHosts [("github.com".toList, "9.9.9.9".toList)]
      ["  # c".toList, "9.9.9.9 github.com".toList]).1 =
      ["# c".toList, "9.9.9.9 github.com".toList] := by
  refine ⟨by decide, by decide⟩

/-- C8 (amended): comment lines (trimmed line starting with `#`) and
malformed lines (fewer than two whitespace-separated fields) are written
to the same position of the output with leading and trailing whitespace
removed but otherwise unchanged; in particular a line with no surrounding
whitespace is preserved byte for byte. -/
theorem c8_comment_malformed_passthrough (m : List (Str × Str))
    (lines : List Str) (i : ℕ) (hi : i < lines.length)
    (h : (trimSpace lines[i]).head? = some '#' ∨ (fields lines[i]).length < 2) :
    (updateHosts m lines).1[i]? = some (trimSpace lines[i]) := by
  have hp : processLine m lines[i] = (trimSpace lines[i], [], []) := by
    rcases h with h | h
    · exact processLine_comment m _ h
    · by_cases hc : (trimSpace lines[i]).head? = some '#'
      · exact processLine_comment m _ hc
      · apply processLine_short m _ hc
        rw [fields_trimSpace]
        omega
  rw [updateHosts]
  show (processedLines m lines ++ _)[i]? = _
  rw [List.getElem?_append, if_pos (by rw [processedLines, List.length_map]; exact hi)]
  rw [processedLines, List.getElem?_map, List.getElem?_eq_getElem hi]
  show some (processLine m lines[i]).1 = _
  rw [hp]

/-- C8 witness: the first line of a two-line file is an untrimmed comment,
the second is whitespace-only (malformed); both come back trimmed. -/
theorem c8_witness :
    (updateHosts [("github.com".toList, "9.9.9.9".toList)]
      ["  # c".toList, "   ".toList]).1[0]? = some (trimSpace "  # c".toList) ∧
    (updateHosts [("github.com".toList, "9.9.9.9".toList)]
      ["  # c".toList, "   ".toList]).1[1]? = some (trimSpace "   ".toList) :=
  ⟨c8_comment_malformed_passthrough [("github.com".toList, "9.9.9.9".toList)]
      ["  # c".toList, "   ".toList] 0 (by decide) (Or.inl (by decide)),
   c8_comment_malformed_passthrough [("github.com".toList, "9.9.9.9".toList)]
      ["  # c".toList, "   ".toList] 1 (by decide) (Or.inr (by decide))⟩

/-- C10: on a line mapping one address to several hostnames of which more
than one is in `ipMap`, the inner loop stops at the first mapped hostname:
the line is rewritten with only that hostname's new address, only that
hostname is marked existing, and each other mapped hostname of the line is
appended as a fresh `<address> <domain>` line (it thus occurs both in the
rewritten line's hostname fields and in the appended line). -/
theorem c10_first_match_only_and_reappend (m : List (Str × Str))
    (line a d1 ip1 d2 ip2 : Str) (hs : List Str)
    (hhead : ¬(trimSpace line).head? = some '#')
    (hfields : fields line = a :: hs)
    (hfm : firstMapped m hs = some (d1, ip1))
    (hne : a ≠ ip1)
    (hd2 : d2 ∈ hs) (hd2m : lookupIP m d2 = some ip2) (hdne : d2 ≠ d1) :
    processLine m line = (joinSpace (ip1 :: hs), [LogEvent.updated d1 ip1], [d1]) ∧
    (updateHosts m [line]).1.head? = some (joinSpace (ip1 :: hs)) ∧
    joinSpace [ip2, d2] ∈ (updateHosts m [line]).1 ∧
    LogEvent.added d2 ip2 ∈ (updateHosts m [line]).2 := by
  have hfields' : fields (trimSpace line) = a :: hs := by
    rw [fields_trimSpace]
    exact hfields
  have hlen : 2 ≤ (fields (trimSpace line)).length := by
    rw [hfields', List.length_cons]
    have : 0 < hs.length := List.length_pos.mpr (List.ne_nil_of_mem hd2)
    omega
  have htail : (fields (trimSpace line)).tail = hs := by
    rw [hfields']
    rfl
  have hheadf : (fields (trimSpace line)).head? = some a := by
    rw [hfields']
    rfl
  have hp : processLine m line =
      (joinSpace (ip1 :: hs), [LogEvent.updated d1 ip1], [d1]) := by
    have := processLine_updated m line d1 ip1 hhead hlen (by rw [htail]; exact hfm)
      (by rw [hheadf]; intro hcon; exact hne (Option.some_inj.mp hcon))
    rw [htail] at this
    exact this
  have hmem2 : (d2, ip2) ∈ missingPairs m [line] := by
    rw [missingPairs]
    apply List.mem_filter.mpr
    refine ⟨lookupIP_mem m d2 ip2 hd2m, ?_⟩
    rw [existingDomains]
    show (!([(processLine m line).2.2].flatten).contains d2) = true
    rw [hp]
    show (!([d1] : List Str).contains d2) = true
    simp only [List.contains_cons, List.contains_nil, Bool.or_false, Bool.not_eq_true']
    exact beq_eq_false_iff_ne.mpr hdne
  refine ⟨hp, ?_, ?_, ?_⟩
  · show (processedLines m [line] ++ _).head? = _
    rw [processedLines]
    show ((processLine m line).1 :: _).head? = _
    rw [hp]
    rfl
  · show joinSpace [ip2, d2] ∈ processedLines m [line] ++
      (missingPairs m [line]).map fun p => joinSpace [p.2, p.1]
    apply List.mem_append_right
    exact List.mem_map_of_mem (fun p => joinSpace [p.2, p.1]) hmem2
  · show LogEvent.added d2 ip2 ∈ processLogs m [line] ++
      (missingPairs m [line]).map fun p => LogEvent.added p.1 p.2
    apply List.mem_append_right
    exact List.mem_map_of_mem (fun p => LogEvent.added p.1 p.2) hmem2

/-- C10 witness: `9.9.9.9 a.com b.com` with both
hostnames mapped; the line is rewritten with a.com's address and
b.com is appended again. -/
theorem c10_witness :
    processLine
      [("a.com".toList, "1.1.1.1".toList),
       ("b.com".toList, "2.2.2.2".toList)]
      "9.9.9.9 a.com b.com".toList =
      (joinSpace ["1.1.1.1".toList, "a.com".toList,
        "b.com".toList],
       [LogEvent.updated "a.com".toList "1.1.1.1".toList],
       ["a.com".toList]) ∧
    (updateHosts
      [("a.com".toList, "1.1.1.1".toList),
       ("b.com".toList, "2.2.2.2".toList)]
      ["9.9.9.9 a.com b.com".toList]).1.head? =
      some (joinSpace ["1.1.1.1".toList, "a.com".toList,
        "b.com".toList]) ∧
    joinSpace ["2.2.2.2".toList, "b.com".toList] ∈
      (updateHosts
        [("a.com".toList, "1.1.1.1".toList),
         ("b.com".toList, "2.2.2.2".toList)]
        ["9.9.9.9 a.com b.com".toList]).1 ∧
    LogEvent.added "b.com".toList "2.2.2.2".toList ∈
      (updateHosts
        [("a.com".toList, "1.1.1.1".toList),
         ("b.com".toList, "2.2.2.2".toList)]
        ["9.9.9.9 a.com b.com".toList]).2 :=
  c10_first_match_only_and_reappend
    [("a.com".toList, "1.1.1.1".toList),
     ("b.com".toList, "2.2.2.2".toList)]
    "9.9.9.9 a.com b.com".toList
    "9.9.9.9".toList "a.com".toList "1.1.1.1".toList
    "b.com".toList "2.2.2.2".toList
    ["a.com".toList, "b.com".toList]
    (by decide) (by decide) (by decide) (by decide) (by decide) (by decide)
    (by decide)

/-! ### Round trip: writing then re-scanning the hosts file -/

theorem splitNL_word_append (l t : Str) (h : ('\n' : Char) ∉ l) :
    splitNL (l ++ '\n' :: t) = l :: splitNL t := by
  induction l with
  | nil =>
      rw [List.nil_append, splitNL, if_pos rfl]
  | cons c l' ih =>
      have hc : ¬c = '\n' := fun hcon => h (hcon ▸ List.mem_cons_self c l')
      have ih' := ih fun hcon => h (List.mem_cons_of_mem c hcon)
      rw [List.cons_append, splitNL, if_neg hc, ih']

theorem splitNL_render (ls : List Str) (h : ∀ l ∈ ls, ('\n' : Char) ∉ l) :
    splitNL (render ls) = ls ++ [[]] := by
  induction ls with
  | nil => rfl
  | cons l ls' ih =>
      show splitNL (l ++ '\n' :: render ls') = _
      rw [splitNL_word_append l (render ls') (h l (List.mem_cons_self l ls')),
        ih fun x hx => h x (List.mem_cons_of_mem l hx)]
      rfl

theorem dropCR_eq_self (s : Str) (h : ¬s.getLast? = some '\r') : dropCR s = s := by
  rw [dropCR, if_neg h]

theorem scanLines_render (ls : List Str)
    (h : ∀ l ∈ ls, ('\n' : Char) ∉ l ∧ ¬l.getLast? = some '\r') :
    scanLines (render ls) = ls := by
  rw [scanLines, splitNL_render ls fun l hl => (h l hl).1]
  rw [if_pos (List.getLast?_concat ls), List.dropLast_concat]
  rw [List.map_congr_left fun l hl => dropCR_eq_self l (h l hl).2]
  exact List.map_id ls

/-! ### Reprocessing lemmas for idempotence -/

theorem processLine_trimSpace (m : List (Str × Str)) (l : Str) :
    processLine m (trimSpace l) = processLine m l := by
  simp only [processLine, trimSpace_idem]

theorem processLine_congr (m1 m2 : List (Str × Str))
    (hlk : ∀ d, lookupIP m1 d = lookupIP m2 d) (l : Str) :
    processLine m1 l = processLine m2 l := by
  simp only [processLine, firstMapped_congr m1 m2 hlk]

/-- Full case analysis of one scanner iteration. -/
theorem processLine_cases (m : List (Str × Str)) (l : Str) :
    processLine m l = (trimSpace l, [], []) ∨
    ∃ d newIP,
      firstMapped m (fields (trimSpace l)).tail = some (d, newIP) ∧
      2 ≤ (fields (trimSpace l)).length ∧
      ¬(trimSpace l).head? = some '#' ∧
      (((fields (trimSpace l)).head? = some newIP ∧
        processLine m l = (trimSpace l, [LogEvent.noop d], [d])) ∨
       (¬(fields (trimSpace l)).head? = some newIP ∧
        processLine m l = (joinSpace (newIP :: (fields (trimSpace l)).tail),
          [LogEvent.updated d newIP], [d]))) := by
  by_cases h1 : (trimSpace l).head? = some '#'
  · exact Or.inl (processLine_comment m l h1)
  · by_cases h2 : 2 ≤ (fields (trimSpace l)).length
    · cases h3 : firstMapped m (fields (trimSpace l)).tail with
      | none => exact Or.inl (processLine_nomatch m l h1 h2 h3)
      | some p =>
          rcases p with ⟨d, newIP⟩
          by_cases h4 : (fields (trimSpace l)).head? = some newIP
          · exact Or.inr ⟨d, newIP, rfl, h2, h1,
              Or.inl ⟨h4, processLine_noop m l d newIP h1 h2 h3 h4⟩⟩
          · exact Or.inr ⟨d, newIP, rfl, h2, h1,
              Or.inr ⟨h4, processLine_updated m l d newIP h1 h2 h3 h4⟩⟩
    · exact Or.inl (processLine_short m l h1 h2)

/-- The words of a rewritten line `newIP :: fields[1:]` are well formed
whenever the map's addresses are. -/
theorem rewritten_words_wf (m : List (Str × Str)) (hwf : ∀ p ∈ m, wfPair p)
    (l : Str) (d newIP : Str)
    (hfm : firstMapped m (fields (trimSpace l)).tail = some (d, newIP)) :
    ∀ w ∈ newIP :: (fields (trimSpace l)).tail,
      w ≠ [] ∧ ∀ c ∈ w, goIsSpace c = false := by
  have hlkd := (firstMapped_spec m _ d newIP hfm).2
  have hwfd := hwf (d, newIP) (lookupIP_mem m d newIP hlkd)
  intro w hw
  rcases List.mem_cons.mp hw with rfl | hw
  · exact ⟨hwfd.2.1, hwfd.2.2.2.1⟩
  · exact fields_wf (trimSpace l) w (List.mem_of_mem_tail hw)

/-- Reprocessing an output line of the scanner phase with an equivalent
map emits the line unchanged, marks the same domains, and logs no
"updated" event. -/
theorem processLine_reprocess (m : List (Str × Str)) (hwf : ∀ p ∈ m, wfPair p)
    (l : Str) :
    processLine m (processLine m l).1 =
      ((processLine m l).1, (processLine m (processLine m l).1).2.1,
        (processLine m l).2.2) ∧
    ∀ e ∈ (processLine m (processLine m l).1).2.1, ∀ d ip,
      e ≠ LogEvent.updated d ip := by
  rcases processLine_cases m l with hA | ⟨d, newIP, hfm, hlen, hhash, hB⟩
  · rw [hA]
    show processLine m (trimSpace l) = _ ∧ _
    rw [processLine_trimSpace, hA]
    exact ⟨rfl, fun e he => by cases he⟩
  · rcases hB with ⟨hhead, heq⟩ | ⟨hhead, heq⟩
    · rw [heq]
      show processLine m (trimSpace l) = _ ∧ _
      rw [processLine_trimSpace, heq]
      refine ⟨rfl, ?_⟩
      intro e he d0 ip0 hcon
      rcases List.mem_singleton.mp he with rfl
      cases hcon
    · -- the rewritten line: reprocess takes the no-op branch
      have hwords := rewritten_words_wf m hwf l d newIP hfm
      have hts : trimSpace (joinSpace (newIP :: (fields (trimSpace l)).tail)) =
          joinSpace (newIP :: (fields (trimSpace l)).tail) :=
        trimSpace_joinSpace _ (List.cons_ne_nil _ _) hwords
      have hfj : fields (joinSpace (newIP :: (fields (trimSpace l)).tail)) =
          newIP :: (fields (trimSpace l)).tail :=
        fields_joinSpace _ hwords
      have hlkd := (firstMapped_spec m _ d newIP hfm).2
      have hwfd := hwf (d, newIP) (lookupIP_mem m d newIP hlkd)
      have hnew1 : ¬(trimSpace (joinSpace (newIP :: (fields (trimSpace l)).tail))).head? =
          some '#' := by
        rw [hts, joinSpace_head? newIP _ hwfd.2.1]
        exact hwfd.2.2.2.2
      have hnew2 : 2 ≤ (fields (trimSpace (joinSpace
          (newIP :: (fields (trimSpace l)).tail)))).length := by
        rw [hts, hfj, List.length_cons]
        have h3 := hlen
        cases hfe : fields (trimSpace l) with
        | nil =>
            rw [hfe] at h3
            simp at h3
        | cons x xs =>
            rw [hfe] at h3
            rw [List.length_cons] at h3
            show 2 ≤ xs.length + 1
            omega
      have hnew3 : firstMapped m (fields (trimSpace (joinSpace
          (newIP :: (fields (trimSpace l)).tail)))).tail = some (d, newIP) := by
        rw [hts, hfj]
        exact hfm
      have hnew4 : (fields (trimSpace (joinSpace
          (newIP :: (fields (trimSpace l)).tail)))).head? = some newIP := by
        rw [hts, hfj]
        rfl
      have hre := processLine_noop m (joinSpace (newIP :: (fields (trimSpace l)).tail))
        d newIP hnew1 hnew2 hnew3 hnew4
      rw [heq]
      show processLine m (joinSpace (newIP :: (fields (trimSpace l)).tail)) = _ ∧ _
      rw [hre, hts]
      refine ⟨rfl, ?_⟩
      intro e he d0 ip0 hcon
      rcases List.mem_singleton.mp he with rfl
      cases hcon

/-- Reprocessing an appended `<ip> <domain>` line is a no-op that marks
the domain. -/
theorem processLine_appended (m : List (Str × Str)) (d v : Str)
    (hwfp : wfPair (d, v)) (hlk : lookupIP m d = some v) :
    processLine m (joinSpace [v, d]) =
      (joinSpace [v, d], [LogEvent.noop d], [d]) := by
  have hwords : ∀ w ∈ [v, d], w ≠ [] ∧ ∀ c ∈ w, goIsSpace c = false := by
    intro w hw
    rcases List.mem_cons.mp hw with rfl | hw
    · exact ⟨hwfp.2.1, hwfp.2.2.2.1⟩
    · rcases List.mem_singleton.mp hw with rfl
      exact ⟨hwfp.1, hwfp.2.2.1⟩
  have hts : trimSpace (joinSpace [v, d]) = joinSpace [v, d] :=
    trimSpace_joinSpace _ (List.cons_ne_nil _ _) hwords
  have hfj : fields (joinSpace [v, d]) = [v, d] := fields_joinSpace _ hwords
  have h1 : ¬(trimSpace (joinSpace [v, d])).head? = some '#' := by
    rw [hts, joinSpace_head? v _ hwfp.2.1]
    exact hwfp.2.2.2.2
  have h2 : 2 ≤ (fields (trimSpace (joinSpace [v, d]))).length := by
    rw [hts, hfj]
    exact le_refl 2
  have h3 : firstMapped m (fields (trimSpace (joinSpace [v, d]))).tail =
      some (d, v) := by
    rw [hts, hfj]
    show firstMapped m [d] = some (d, v)
    rw [firstMapped, hlk]
  have h4 : (fields (trimSpace (joinSpace [v, d]))).head? = some v := by
    rw [hts, hfj]
    rfl
  have := processLine_noop m (joinSpace [v, d]) d v h1 h2 h3 h4
  rw [this, hts]


/-! ### Idempotence of the full update -/

theorem wf_transfer (m1 m2 : List (Str × Str))
    (hk2 : (m2.map Prod.fst).Nodup)
    (hlk : ∀ d, lookupIP m1 d = lookupIP m2 d)
    (hwf : ∀ p ∈ m1, wfPair p) :
    ∀ p ∈ m2, wfPair p := by
  intro p hp
  have h2 : lookupIP m2 p.1 = some p.2 := lookupIP_eq_of_nodup m2 p.1 p.2 hk2 hp
  have h1 : lookupIP m1 p.1 = some p.2 := by rw [hlk p.1]; exact h2
  exact hwf (p.1, p.2) (lookupIP_mem m1 p.1 p.2 h1)

theorem updateHosts_reprocess (m1 m2 : List (Str × Str)) (lines : List Str)
    (hk1 : (m1.map Prod.fst).Nodup) (hk2 : (m2.map Prod.fst).Nodup)
    (hlk : ∀ d, lookupIP m1 d = lookupIP m2 d)
    (hwf : ∀ p ∈ m1, wfPair p) :
    (updateHosts m2 (updateHosts m1 lines).1).1 = (updateHosts m1 lines).1 ∧
    ∀ e ∈ (updateHosts m2 (updateHosts m1 lines).1).2, ∀ d ip,
      e ≠ LogEvent.updated d ip := by
  have hlk' : ∀ d, lookupIP m2 d = lookupIP m1 d := fun d => (hlk d).symm
  -- the two kinds of lines present in the first run's output
  have hout_mem : ∀ l' ∈ (updateHosts m1 lines).1,
      (∃ l ∈ lines, l' = (processLine m1 l).1) ∨
      ∃ p ∈ missingPairs m1 lines, l' = joinSpace [p.2, p.1] := by
    intro l' hl'
    rcases List.mem_append.mp hl' with h | h
    · rcases List.mem_map.mp h with ⟨l, hl, rfl⟩
      exact Or.inl ⟨l, hl, rfl⟩
    · rcases List.mem_map.mp h with ⟨p, hp, rfl⟩
      exact Or.inr ⟨p, hp, rfl⟩
  -- second-run processing of an appended line
  have happended : ∀ p ∈ missingPairs m1 lines,
      processLine m2 (joinSpace [p.2, p.1]) =
        (joinSpace [p.2, p.1], [LogEvent.noop p.1], [p.1]) := by
    intro p hp
    have hpm1 : p ∈ m1 := (List.mem_filter.mp hp).1
    have hwp : wfPair p := hwf p hpm1
    have hlkp : lookupIP m2 p.1 = some p.2 := by
      rw [hlk' p.1, lookupIP_eq_of_nodup m1 p.1 p.2 hk1 hpm1]
    exact processLine_appended m2 p.1 p.2 hwp hlkp
  -- second-run processing of a scanner-phase output line
  have hprocessed : ∀ l ∈ lines,
      processLine m2 (processLine m1 l).1 =
        ((processLine m1 l).1, (processLine m2 (processLine m1 l).1).2.1,
          (processLine m1 l).2.2) ∧
      ∀ e ∈ (processLine m2 (processLine m1 l).1).2.1, ∀ d ip,
        e ≠ LogEvent.updated d ip := by
    intro l _
    have hcongr := processLine_congr m2 m1 hlk' (processLine m1 l).1
    rcases processLine_reprocess m1 hwf l with ⟨heq, hupd⟩
    constructor
    · rw [hcongr, heq]
    · intro e he
      rw [hcongr] at he
      exact hupd e he
  -- every second-run line re-emits itself with no "updated" log
  have hfix : ∀ l' ∈ (updateHosts m1 lines).1,
      (processLine m2 l').1 = l' ∧
      ∀ e ∈ (processLine m2 l').2.1, ∀ d ip, e ≠ LogEvent.updated d ip := by
    intro l' hl'
    rcases hout_mem l' hl' with ⟨l, hl, rfl⟩ | ⟨p, hp, rfl⟩
    · rcases hprocessed l hl with ⟨heq, hupd⟩
      constructor
      · rw [heq]
      · exact hupd
    · rw [happended p hp]
      refine ⟨rfl, ?_⟩
      intro e he d ip hcon
      rcases List.mem_singleton.mp he with rfl
      cases hcon
  -- the scanner phase of the second run reproduces the file
  have hlines2 : processedLines m2 (updateHosts m1 lines).1 =
      (updateHosts m1 lines).1 := by
    rw [processedLines,
      List.map_congr_left fun l' hl' => (hfix l' hl').1]
    exact List.map_id _
  -- every key of m2 is marked existing by the second run
  have hcover : ∀ p ∈ m2,
      (existingDomains m2 (updateHosts m1 lines).1).contains p.1 = true := by
    intro p hp
    apply List.elem_iff.mpr
    have hlk2 : lookupIP m2 p.1 = some p.2 := lookupIP_eq_of_nodup m2 p.1 p.2 hk2 hp
    have hlk1 : lookupIP m1 p.1 = some p.2 := by rw [hlk p.1]; exact hlk2
    by_cases hd : p.1 ∈ existingDomains m1 lines
    · rw [existingDomains] at hd
      rcases List.mem_flatten.mp hd with ⟨lst, hlst, hdl⟩
      rcases List.mem_map.mp hlst with ⟨l, hl, rfl⟩
      have hl'mem : (processLine m1 l).1 ∈ (updateHosts m1 lines).1 :=
        List.mem_append_left _ (List.mem_map_of_mem (fun x => (processLine m1 x).1) hl)
      have hmarks : (processLine m2 (processLine m1 l).1).2.2 =
          (processLine m1 l).2.2 := by
        have heq := (hprocessed l hl).1
        exact congrArg (fun t => t.2.2) heq
      rw [existingDomains]
      apply List.mem_flatten.mpr
      refine ⟨(processLine m2 (processLine m1 l).1).2.2, ?_, ?_⟩
      · exact List.mem_map_of_mem (fun x => (processLine m2 x).2.2) hl'mem
      · rw [hmarks]
        exact hdl
    · have hpm1 : (p.1, p.2) ∈ m1 := lookupIP_mem m1 p.1 p.2 hlk1
      have hmiss : (p.1, p.2) ∈ missingPairs m1 lines := by
        rw [missingPairs]
        apply List.mem_filter.mpr
        refine ⟨hpm1, ?_⟩
        show (!(existingDomains m1 lines).contains p.1) = true
        rw [Bool.not_eq_true']
        cases hcb : (existingDomains m1 lines).contains p.1 with
        | false => rfl
        | true => exact absurd (List.elem_iff.mp hcb) hd
      have hl'mem : joinSpace [p.2, p.1] ∈ (updateHosts m1 lines).1 := by
        apply List.mem_append_right
        have := List.mem_map_of_mem (fun q => joinSpace [q.2, q.1]) hmiss
        exact this
      rw [existingDomains]
      apply List.mem_flatten.mpr
      refine ⟨(processLine m2 (joinSpace [p.2, p.1])).2.2, ?_, ?_⟩
      · exact List.mem_map_of_mem (fun x => (processLine m2 x).2.2) hl'mem
      · rw [happended (p.1, p.2) hmiss]
        exact List.mem_singleton.mpr rfl
  have hmiss2 : missingPairs m2 (updateHosts m1 lines).1 = [] := by
    rw [missingPairs]
    apply List.filter_eq_nil_iff.mpr
    intro p hp hcon
    rw [hcover p hp] at hcon
    exact Bool.false_ne_true hcon
  constructor
  · show processedLines m2 (updateHosts m1 lines).1 ++
      (missingPairs m2 (updateHosts m1 lines).1).map
        (fun p => joinSpace [p.2, p.1]) = _
    rw [hmiss2, hlines2, List.map_nil, List.append_nil]
  · intro e he d ip
    have he' : e ∈ processLogs m2 (updateHosts m1 lines).1 ++
        (missingPairs m2 (updateHosts m1 lines).1).map
          (fun p => LogEvent.added p.1 p.2) := he
    rw [hmiss2] at he'
    rw [List.map_nil, List.append_nil] at he'
    rw [processLogs] at he'
    rcases List.mem_flatten.mp he' with ⟨lst, hlst, hel⟩
    rcases List.mem_map.mp hlst with ⟨l', hl', rfl⟩
    exact (hfix l' hl').2 e hel d ip


theorem last_not_cr_of_trim_fixed (s : Str) (h : trimSpace s = s) :
    ¬s.getLast? = some '\r' := by
  have h2 : trimRight s = s := by
    have h3 := trimRight_idem (trimLeft s)
    rw [show trimRight (trimLeft s) = trimSpace s from rfl] at h3
    rw [h] at h3
    exact h3
  intro hc
  have h4 := trimRight_last_not_space s h2 '\r' hc
  have h5 : goIsSpace '\r' = true := by decide
  rw [h5] at h4
  cases h4

theorem no_nl_of_words (ws : List Str)
    (h : ∀ w ∈ ws, w ≠ [] ∧ ∀ c ∈ w, goIsSpace c = false) :
    ('\n' : Char) ∉ joinSpace ws := by
  intro hmem
  rcases mem_joinSpace ws _ hmem with hsp | ⟨w, hw, hcw⟩
  · exact absurd hsp (by decide)
  · have h1 := (h w hw).2 '\n' hcw
    have h2 : goIsSpace '\n' = true := by decide
    rw [h2] at h1
    cases h1

theorem appended_words_wf (p : Str × Str) (hwp : wfPair p) :
    ∀ w ∈ [p.2, p.1], w ≠ [] ∧ ∀ c ∈ w, goIsSpace c = false := by
  intro w hw
  rcases List.mem_cons.mp hw with rfl | hw
  · exact ⟨hwp.2.1, hwp.2.2.2.1⟩
  · rcases List.mem_singleton.mp hw with rfl
    exact ⟨hwp.1, hwp.2.2.1⟩

/-- Every line the first run writes is already trimmed, newline-free and
does not end in a carriage return, so re-scanning the rendered file
recovers exactly these lines. -/
theorem updateHosts_out_clean (m : List (Str × Str)) (lines : List Str)
    (hwf : ∀ p ∈ m, wfPair p) (hnl : ∀ l ∈ lines, ('\n' : Char) ∉ l) :
    ∀ l' ∈ (updateHosts m lines).1,
      trimSpace l' = l' ∧ ('\n' : Char) ∉ l' ∧ ¬l'.getLast? = some '\r' := by
  intro l' hl'
  rcases List.mem_append.mp hl' with h | h
  · rcases List.mem_map.mp h with ⟨l, hl, rfl⟩
    rcases processLine_cases m l with hA | ⟨d, newIP, hfm, hlen, hhash, hB⟩
    · rw [hA]
      refine ⟨trimSpace_idem l, ?_, last_not_cr_of_trim_fixed _ (trimSpace_idem l)⟩
      intro hmem
      exact hnl l hl ((trimSpace_sublist l).subset hmem)
    · rcases hB with ⟨_, heq⟩ | ⟨_, heq⟩
      · rw [heq]
        refine ⟨trimSpace_idem l, ?_, last_not_cr_of_trim_fixed _ (trimSpace_idem l)⟩
        intro hmem
        exact hnl l hl ((trimSpace_sublist l).subset hmem)
      · rw [heq]
        have hwords := rewritten_words_wf m hwf l d newIP hfm
        have hts := trimSpace_joinSpace _ (List.cons_ne_nil _ _) hwords
        exact ⟨hts, no_nl_of_words _ hwords, last_not_cr_of_trim_fixed _ hts⟩
  · rcases List.mem_map.mp h with ⟨p, hp, rfl⟩
    have hwp := hwf p (List.mem_filter.mp hp).1
    have hwords := appended_words_wf p hwp
    have hts := trimSpace_joinSpace _ (List.cons_ne_nil _ _) hwords
    exact ⟨hts, no_nl_of_words _ hwords, last_not_cr_of_trim_fixed _ hts⟩

/-- C7: a second `updateHosts` run with the same domain→address mapping
(the association lists `m1`, `m2` may enumerate the Go map in different
orders but agree as maps) over the file written by the first run re-reads
exactly the written lines, emits a byte-identical file, and logs no
"updated" event — every mapped domain is detected as a no-op. -/
theorem c7_updateHosts_idempotent (m1 m2 : List (Str × Str)) (lines : List Str)
    (hk1 : (m1.map Prod.fst).Nodup) (hk2 : (m2.map Prod.fst).Nodup)
    (hlk : ∀ d, lookupIP m1 d = lookupIP m2 d)
    (hwf : ∀ p ∈ m1, wfPair p)
    (hnl : ∀ l ∈ lines, ('\n' : Char) ∉ l) :
    scanLines (render (updateHosts m1 lines).1) = (updateHosts m1 lines).1 ∧
    (updateHosts m2 (scanLines (render (updateHosts m1 lines).1))).1 =
      (updateHosts m1 lines).1 ∧
    render (updateHosts m2 (scanLines (render (updateHosts m1 lines).1))).1 =
      render (updateHosts m1 lines).1 ∧
    ∀ e ∈ (updateHosts m2 (scanLines (render (updateHosts m1 lines).1))).2,
      ∀ d ip, e ≠ LogEvent.updated d ip := by
  have hclean := updateHosts_out_clean m1 lines hwf hnl
  have hrt : scanLines (render (updateHosts m1 lines).1) = (updateHosts m1 lines).1 :=
    scanLines_render _ fun l hl => ⟨(hclean l hl).2.1, (hclean l hl).2.2⟩
  rcases updateHosts_reprocess m1 m2 lines hk1 hk2 hlk hwf with ⟨hfst, hlog⟩
  refine ⟨hrt, ?_, ?_, ?_⟩
  · rw [hrt]
    exact hfst
  · rw [hrt, hfst]
  · rw [hrt]
    exact hlog

/-- C7 witness: a three-line hosts file (comment, untouched entry, mapped
entry) updated twice with the one-entry map `a.com ↦ 1.1.1.1`. -/
theorem c7_witness :
    scanLines (render (updateHosts [("a.com".toList, "1.1.1.1".toList)]
      ["# h".toList, "127.0.0.1 localhost".toList, "9.9.9.9 a.com".toList]).1) =
      (updateHosts [("a.com".toList, "1.1.1.1".toList)]
        ["# h".toList, "127.0.0.1 localhost".toList, "9.9.9.9 a.com".toList]).1 ∧
    (updateHosts [("a.com".toList, "1.1.1.1".toList)]
      (scanLines (render (updateHosts [("a.com".toList, "1.1.1.1".toList)]
        ["# h".toList, "127.0.0.1 localhost".toList, "9.9.9.9 a.com".toList]).1))).1 =
      (updateHosts [("a.com".toList, "1.1.1.1".toList)]
        ["# h".toList, "127.0.0.1 localhost".toList, "9.9.9.9 a.com".toList]).1 ∧
    render (updateHosts [("a.com".toList, "1.1.1.1".toList)]
      (scanLines (render (updateHosts [("a.com".toList, "1.1.1.1".toList)]
        ["# h".toList, "127.0.0.1 localhost".toList, "9.9.9.9 a.com".toList]).1))).1 =
      render (updateHosts [("a.com".toList, "1.1.1.1".toList)]
        ["# h".toList, "127.0.0.1 localhost".toList, "9.9.9.9 a.com".toList]).1 ∧
    ∀ e ∈ (updateHosts [("a.com".toList, "1.1.1.1".toList)]
      (scanLines (render (updateHosts [("a.com".toList, "1.1.1.1".toList)]
        ["# h".toList, "127.0.0.1 localhost".toList, "9.9.9.9 a.com".toList]).1))).2,
      ∀ d ip, e ≠ LogEvent.updated d ip :=
  c7_updateHosts_idempotent
    [("a.com".toList, "1.1.1.1".toList)] [("a.com".toList, "1.1.1.1".toList)]
    ["# h".toList, "127.0.0.1 localhost".toList, "9.9.9.9 a.com".toList]
    (by decide) (by decide) (fun _ => rfl)
    (by
      intro p hp
      rcases List.mem_singleton.mp hp with rfl
      exact ⟨by decide, by decide, by decide, by decide, by decide⟩)
    (by decide)


end FastIP
